import Mathlib

/-
Verification of the search-result formatting core of the MeiliSearch
`meilisearch-lib/src/index/search.rs` module, against its natural-language
specification.

The analyzer is an external collaborator: it turns a string into a list of
`(source_slice, token)` pairs that cover the string exactly, each token
classified as a word or a separator.  We model a string as its list of UTF-8
bytes (`ByteStr`), a token as its source slice together with its word
classification, and the analyzer as an arbitrary function from byte strings to
token lists, constrained only where the spec constrains it.  The matcher is
an arbitrary function from tokens to an optional matched byte prefix length,
exactly the `Matcher` trait of the source.
-/

set_option maxHeartbeats 1000000

namespace MeiliSearch

/-- A byte string: the bytes of a UTF-8 encoded Rust string slice. -/
abbrev ByteStr := List Nat

/-- An analyzed token, as produced by the analyzer for one source slice:
the slice's bytes and the word/separator classification
(`is_word()` respectively `is_separator().is_none()`). -/
structure Tok where
  src : ByteStr
  isWord : Bool
deriving DecidableEq

/-- Per-field formatting directive, from the source's `FormatOptions`. -/
structure FormatOptions where
  highlight : Bool
  crop : Option Nat
deriving DecidableEq

/-- The merge law of `FormatOptions::merge`: `highlight` is or-ed,
`crop` is first-set-wins. -/
def FormatOptions.merge (a b : FormatOptions) : FormatOptions :=
  { highlight := a.highlight || b.highlight
    crop := match a.crop with
      | some c => some c
      | none => b.crop }

/-- Rust's `str::is_char_boundary k`: true at 0; at the end of the string;
and at any byte that is not a UTF-8 continuation byte (`0x80..0xBF`). -/
def isCharBoundary (s : ByteStr) (k : Nat) : Bool :=
  k == 0 ||
    match s[k]? with
    | some b => decide (b % 256 < 128) || decide (192 ≤ b % 256)
    | none => k == s.length

/-- Emission of one token of the selected interval by `Formatter::format_string`
(source lines 740-766): when highlighting is on and the token is a word that the
matcher matches with prefix length `k`, the word is split at byte `k` when that
split is valid (`word.get(..k)` and `word.get(k..)` both succeed) and wrapped in
the highlight tags; otherwise the whole word is wrapped; non-matching tokens are
emitted verbatim. -/
def formatToken (preTag postTag : ByteStr) (highlight : Bool)
    (m : Tok → Option Nat) (t : Tok) : ByteStr :=
  if highlight && t.isWord then
    match m t with
    | some k =>
        if k ≤ t.src.length ∧ isCharBoundary t.src k then
          preTag ++ t.src.take k ++ postTag ++ t.src.drop k
        else
          preTag ++ t.src ++ postTag
    | none => t.src
  else t.src

/-- Number of tokens counted as words by the crop logic
(those with `is_separator().is_none()`). -/
def countWords (ts : List Tok) : Nat := (ts.filter (·.isWord)).length

/-- The `skip_while` of the crop branch (source lines 678-683): tokens before
the first match are skipped while, after decrementing the running word count at
each word token, that count is still at least the before-budget.  The first
argument of the recursion is the running `total_count`. -/
def dropBefore (budget : Nat) : Nat → List Tok → List Tok
  | _, [] => []
  | tc, t :: ts =>
      let tc' := if t.isWord then tc - 1 else tc
      if budget ≤ tc' then dropBefore budget tc' ts else t :: ts

/-- The `take_while` run after the match (source lines 692-699): a token is
taken while the number of word tokens taken so far is below the after-budget;
the count is incremented at word tokens after the test. -/
def takeAfter (budget : Nat) : Nat → List Tok → List Tok
  | _, [] => []
  | taken, t :: ts =>
      if taken < budget then
        t :: takeAfter budget (if t.isWord then taken + 1 else taken) ts
      else []

/-- The tokens left in the underlying iterator once the `take_while` of
`takeAfter` has finished: `take_while` consumes (and discards) the first token
failing the bound test, so that token is not part of the remainder inspected by
the trailing crop-marker check. -/
def remAfter (budget : Nat) : Nat → List Tok → List Tok
  | _, [] => []
  | taken, t :: ts =>
      if taken < budget then
        remAfter budget (if t.isWord then taken + 1 else taken) ts
      else ts

/-- The interval selected by the crop branch of `format_string` when some token
matches (source lines 656-703): the kept tokens before the first match, the
match token, the kept tokens after it, and whether a crop marker is due at the
head and at the tail. -/
structure CropPlan where
  before : List Tok
  mtok : Tok
  after : List Tok
  markerBefore : Bool
  markerAfter : Bool
deriving DecidableEq

/-- The rebalanced word budget after the match (source lines 686-690):
`crop_len - (crop_len_before + 1)` when the head is cropped
(`total_count > crop_len / 2`), `crop_len - (total_count + 1)` otherwise;
subtraction saturates at 0. -/
def afterBudget (cropLen totalBefore : Nat) : Nat :=
  if cropLen / 2 < totalBefore then cropLen - (cropLen / 2 + 1)
  else cropLen - (totalBefore + 1)

/-- Crop-interval selection of `Formatter::format_string`: `none` when no token
matches (the source's `None` arm), otherwise the selected interval.  Mirrors
source lines 656-703: the buffer of non-matching leading tokens, the word count
`total_count` of that buffer, `crop_len_before = crop_len / 2`, the head-crop
test `total_count > crop_len_before`, the skip of leading tokens, the
rebalanced after-budget, and the take of trailing tokens. -/
def cropInterval (m : Tok → Option Nat) (cropLen : Nat) (toks : List Tok) :
    Option CropPlan :=
  match toks.dropWhile (fun t => (m t).isNone) with
  | [] => none
  | mtok :: afterToks =>
      let buffer := toks.takeWhile (fun t => (m t).isNone)
      let totalCount := countWords buffer
      let cropLenBefore := cropLen / 2
      let cropLenAfter := afterBudget cropLen totalCount
      some { before := dropBefore cropLenBefore totalCount buffer
             mtok := mtok
             after := takeAfter cropLenAfter 0 afterToks
             markerBefore := decide (cropLenBefore < totalCount)
             markerAfter := decide (remAfter cropLenAfter 0 afterToks ≠ []) }

/-- The fold of source line 740: emit every token of the interval, appending to
an initial accumulator (the optional leading crop marker). -/
def formatTokens (preTag postTag : ByteStr) (highlight : Bool)
    (m : Tok → Option Nat) (init : ByteStr) (ts : List Tok) : ByteStr :=
  ts.foldl (fun out t => out ++ formatToken preTag postTag highlight m t) init

/-- Embedding of `Formatter::format_string` over the analyzed token list.
With `crop = Some L`, `L > 0`: if some token matches, the interval from
`cropInterval` is emitted between the due crop markers; if no token matches,
tokens are emitted raw (no highlighting) until `L` words are taken, with a
trailing crop marker iff the iterator still holds a token after the
bound-check token consumed by the `take_while`.  With `crop = None` or
`Some 0`, the whole token stream is the interval and no marker is emitted. -/
def format_string (preTag postTag cropMarker : ByteStr) (m : Tok → Option Nat)
    (opts : FormatOptions) (toks : List Tok) : ByteStr :=
  match opts.crop with
  | some cropLen =>
      if 0 < cropLen then
        match cropInterval m cropLen toks with
        | some p =>
            let head := if p.markerBefore then cropMarker else []
            let body := formatTokens preTag postTag opts.highlight m head
              (p.before ++ p.mtok :: p.after)
            if p.markerAfter then body ++ cropMarker else body
        | none =>
            let out := ((takeAfter cropLen 0 toks).map Tok.src).flatten
            if remAfter cropLen 0 toks ≠ [] then out ++ cropMarker else out
      else formatTokens preTag postTag opts.highlight m [] toks
  | none => formatTokens preTag postTag opts.highlight m [] toks

/-! ### Structural lemmas about the crop logic -/

theorem countWords_nil : countWords [] = 0 := rfl

theorem countWords_cons (t : Tok) (ts : List Tok) :
    countWords (t :: ts) = (if t.isWord then 1 else 0) + countWords ts := by
  simp only [countWords, List.filter_cons]
  split <;> simp [Nat.add_comm]

theorem countWords_append (a b : List Tok) :
    countWords (a ++ b) = countWords a + countWords b := by
  simp [countWords, List.filter_append]

/-- The head of a non-empty `dropWhile` fails the predicate. -/
theorem dropWhile_head_false {p : Tok → Bool} {l xs : List Tok} {x : Tok}
    (h : l.dropWhile p = x :: xs) : p x = false := by
  induction l with
  | nil => simp at h
  | cons t ts ih =>
      rw [List.dropWhile_cons] at h
      split at h
      · exact ih h
      · cases h
        simpa using ‹¬ p x = true›

/-- Unfolding of `dropBefore` at a word token. -/
theorem dropBefore_cons_word (budget tc : Nat) (t : Tok) (ts : List Tok)
    (hw : t.isWord = true) :
    dropBefore budget tc (t :: ts)
      = if budget ≤ tc - 1 then dropBefore budget (tc - 1) ts else t :: ts := by
  simp [dropBefore, hw]

/-- Unfolding of `dropBefore` at a separator token. -/
theorem dropBefore_cons_sep (budget tc : Nat) (t : Tok) (ts : List Tok)
    (hw : t.isWord = false) :
    dropBefore budget tc (t :: ts)
      = if budget ≤ tc then dropBefore budget tc ts else t :: ts := by
  simp [dropBefore, hw]

/-- Unfolding of `takeAfter` at a word token under budget. -/
theorem takeAfter_cons_word (b n : Nat) (t : Tok) (ts : List Tok)
    (hlt : n < b) (hw : t.isWord = true) :
    takeAfter b n (t :: ts) = t :: takeAfter b (n + 1) ts := by
  simp [takeAfter, hlt, hw]

/-- Unfolding of `takeAfter` at a separator token under budget. -/
theorem takeAfter_cons_sep (b n : Nat) (t : Tok) (ts : List Tok)
    (hlt : n < b) (hw : t.isWord = false) :
    takeAfter b n (t :: ts) = t :: takeAfter b n ts := by
  simp [takeAfter, hlt, hw]

/-- Unfolding of `takeAfter` at the budget bound. -/
theorem takeAfter_cons_stop (b n : Nat) (t : Tok) (ts : List Tok)
    (hge : ¬ n < b) :
    takeAfter b n (t :: ts) = [] := by
  simp [takeAfter, hge]

/-- Unfolding of `remAfter` at a word token under budget. -/
theorem remAfter_cons_word (b n : Nat) (t : Tok) (ts : List Tok)
    (hlt : n < b) (hw : t.isWord = true) :
    remAfter b n (t :: ts) = remAfter b (n + 1) ts := by
  simp [remAfter, hlt, hw]

/-- Unfolding of `remAfter` at a separator token under budget. -/
theorem remAfter_cons_sep (b n : Nat) (t : Tok) (ts : List Tok)
    (hlt : n < b) (hw : t.isWord = false) :
    remAfter b n (t :: ts) = remAfter b n ts := by
  simp [remAfter, hlt, hw]

/-- Unfolding of `remAfter` at the budget bound. -/
theorem remAfter_cons_stop (b n : Nat) (t : Tok) (ts : List Tok)
    (hge : ¬ n < b) :
    remAfter b n (t :: ts) = ts := by
  simp [remAfter, hge]

/-- The tokens kept before the match are a suffix of the buffer. -/
theorem dropBefore_suffix (budget tc : Nat) (l : List Tok) :
    ∃ skipped, l = skipped ++ dropBefore budget tc l := by
  induction l generalizing tc with
  | nil => exact ⟨[], rfl⟩
  | cons t ts ih =>
      cases hw : t.isWord with
      | true =>
          rw [dropBefore_cons_word budget tc t ts hw]
          by_cases hle : budget ≤ tc - 1
          · obtain ⟨sk, hsk⟩ := ih (tc - 1)
            refine ⟨t :: sk, ?_⟩
            rw [if_pos hle, List.cons_append, ← hsk]
          · exact ⟨[], by rw [if_neg hle, List.nil_append]⟩
      | false =>
          rw [dropBefore_cons_sep budget tc t ts hw]
          by_cases hle : budget ≤ tc
          · obtain ⟨sk, hsk⟩ := ih tc
            refine ⟨t :: sk, ?_⟩
            rw [if_pos hle, List.cons_append, ← hsk]
          · exact ⟨[], by rw [if_neg hle, List.nil_append]⟩

/-- Word count kept before the match: when the running count starts at the
buffer's word count, the skip keeps exactly `min totalCount budget` words. -/
theorem dropBefore_countWords (budget : Nat) (l : List Tok) (tc : Nat)
    (h : tc = countWords l) :
    countWords (dropBefore budget tc l) = min tc budget := by
  induction l generalizing tc with
  | nil =>
      rw [countWords_nil] at h
      subst h
      simp [dropBefore, countWords_nil]
  | cons t ts ih =>
      rw [countWords_cons] at h
      cases hw : t.isWord with
      | true =>
          rw [hw, if_pos rfl] at h
          rw [dropBefore_cons_word budget tc t ts hw]
          by_cases hle : budget ≤ tc - 1
          · rw [if_pos hle, ih (tc - 1) (by omega)]
            omega
          · rw [if_neg hle, countWords_cons, hw, if_pos rfl]
            omega
      | false =>
          rw [hw] at h
          simp only [Bool.false_eq_true, if_false] at h
          rw [dropBefore_cons_sep budget tc t ts hw]
          by_cases hle : budget ≤ tc
          · rw [if_pos hle, ih tc (by omega)]
          · rw [if_neg hle, countWords_cons, hw]
            simp only [Bool.false_eq_true, if_false]
            omega

/-- The taken tail followed by the untaken remainder reassembles the input. -/
theorem takeAfter_append (b n : Nat) (l : List Tok) :
    takeAfter b n l ++ l.drop (takeAfter b n l).length = l := by
  induction l generalizing n with
  | nil => simp [takeAfter]
  | cons t ts ih =>
      by_cases hlt : n < b
      · cases hw : t.isWord with
        | true =>
            rw [takeAfter_cons_word b n t ts hlt hw, List.length_cons,
              List.drop_succ_cons, List.cons_append, ih]
        | false =>
            rw [takeAfter_cons_sep b n t ts hlt hw, List.length_cons,
              List.drop_succ_cons, List.cons_append, ih]
      · rw [takeAfter_cons_stop b n t ts hlt]
        simp

/-- The remainder seen by the trailing-marker check is the untaken remainder
with its first token (the one consumed by the bound check) removed. -/
theorem remAfter_eq (b n : Nat) (l : List Tok) :
    remAfter b n l = (l.drop (takeAfter b n l).length).tail := by
  induction l generalizing n with
  | nil => simp [remAfter, takeAfter]
  | cons t ts ih =>
      by_cases hlt : n < b
      · cases hw : t.isWord with
        | true =>
            rw [remAfter_cons_word b n t ts hlt hw,
              takeAfter_cons_word b n t ts hlt hw, List.length_cons,
              List.drop_succ_cons, ih]
        | false =>
            rw [remAfter_cons_sep b n t ts hlt hw,
              takeAfter_cons_sep b n t ts hlt hw, List.length_cons,
              List.drop_succ_cons, ih]
      · rw [remAfter_cons_stop b n t ts hlt, takeAfter_cons_stop b n t ts hlt]
        simp

/-- The taken tail holds at most `budget - taken` word tokens. -/
theorem takeAfter_countWords (b n : Nat) (l : List Tok) :
    countWords (takeAfter b n l) ≤ b - n := by
  induction l generalizing n with
  | nil => simp [takeAfter, countWords_nil]
  | cons t ts ih =>
      by_cases hlt : n < b
      · cases hw : t.isWord with
        | true =>
            rw [takeAfter_cons_word b n t ts hlt hw, countWords_cons, hw,
              if_pos rfl]
            have := ih (n + 1)
            omega
        | false =>
            rw [takeAfter_cons_sep b n t ts hlt hw, countWords_cons, hw]
            simp only [Bool.false_eq_true, if_false]
            have := ih n
            omega
      · rw [takeAfter_cons_stop b n t ts hlt, countWords_nil]
        omega

/-- When the take stopped with tokens left over, the word budget was used in
full. -/
theorem takeAfter_countWords_eq (b n : Nat) (l : List Tok) (hn : n ≤ b)
    (hd : l.drop (takeAfter b n l).length ≠ []) :
    n + countWords (takeAfter b n l) = b := by
  induction l generalizing n with
  | nil => simp [takeAfter] at hd
  | cons t ts ih =>
      by_cases hlt : n < b
      · cases hw : t.isWord with
        | true =>
            rw [takeAfter_cons_word b n t ts hlt hw, List.length_cons,
              List.drop_succ_cons] at hd
            rw [takeAfter_cons_word b n t ts hlt hw, countWords_cons, hw,
              if_pos rfl]
            have := ih (n + 1) (by omega) hd
            omega
        | false =>
            rw [takeAfter_cons_sep b n t ts hlt hw, List.length_cons,
              List.drop_succ_cons] at hd
            rw [takeAfter_cons_sep b n t ts hlt hw, countWords_cons, hw]
            simp only [Bool.false_eq_true, if_false]
            have := ih n (by omega) hd
            omega
      · rw [takeAfter_cons_stop b n t ts hlt, countWords_nil]
        omega

/-- Folding the interval starting from an initial accumulator prepends that
accumulator. -/
theorem formatTokens_append (preTag postTag : ByteStr) (hl : Bool)
    (m : Tok → Option Nat) (init : ByteStr) (ts : List Tok) :
    formatTokens preTag postTag hl m init ts
      = init ++ formatTokens preTag postTag hl m [] ts := by
  induction ts generalizing init with
  | nil => simp [formatTokens]
  | cons t ts ih =>
      have e1 : formatTokens preTag postTag hl m init (t :: ts)
          = formatTokens preTag postTag hl m
              (init ++ formatToken preTag postTag hl m t) ts := rfl
      have e2 : formatTokens preTag postTag hl m [] (t :: ts)
          = formatTokens preTag postTag hl m
              ([] ++ formatToken preTag postTag hl m t) ts := rfl
      rw [e1, e2, List.nil_append,
        ih (init ++ formatToken preTag postTag hl m t),
        ih (formatToken preTag postTag hl m t), List.append_assoc]

/-! ### Pagination clamp (orchestrator, source lines 135-141) -/

/-- The hard cap on results served by one search call. -/
def HARD_RESULT_LIMIT : Nat := 1000

/-- The offset passed to the underlying index:
`min(query.offset.unwrap_or(0), HARD_RESULT_LIMIT)`. -/
def effectiveOffset (queryOffset : Option Nat) : Nat :=
  min (queryOffset.getD 0) HARD_RESULT_LIMIT

/-- The limit passed to the underlying index:
`min(query.limit, HARD_RESULT_LIMIT.saturating_sub(offset))`
(saturating subtraction is Nat subtraction). -/
def effectiveLimit (queryOffset : Option Nat) (queryLimit : Nat) : Nat :=
  min queryLimit (HARD_RESULT_LIMIT - effectiveOffset queryOffset)

/-! ### C2: highlight policy -/

/-- C2: highlight policy.  For a word token whose matcher returns prefix length
`k`: if `k` is the whole byte length, or byte `k` is not a valid character
boundary of the source slice (in particular when `k` overshoots the slice or
splits a multi-byte character), the whole word is wrapped in the tags;
otherwise the word is split at byte `k` and the head is wrapped.  The emission
is total, so no input can panic. -/
theorem highlight_policy (preTag postTag : ByteStr) (m : Tok → Option Nat)
    (t : Tok) (k : Nat) (hw : t.isWord = true) (hm : m t = some k) :
    (k = t.src.length ∨ ¬ (isCharBoundary t.src k = true) →
      formatToken preTag postTag true m t = preTag ++ t.src ++ postTag)
    ∧ (isCharBoundary t.src k = true → k ≠ t.src.length →
      formatToken preTag postTag true m t
        = preTag ++ t.src.take k ++ postTag ++ t.src.drop k) := by
  constructor
  · rintro (rfl | hb)
    · have hbd : isCharBoundary t.src t.src.length = true := by
        unfold isCharBoundary
        have : t.src[t.src.length]? = none := by
          simp
        simp [this]
      simp [formatToken, hw, hm, hbd]
    · have : ¬ (k ≤ t.src.length ∧ isCharBoundary t.src k) := by
        intro h
        exact hb h.2
      simp [formatToken, hw, hm, this]
  · intro hb hne
    have hk : k ≤ t.src.length := by
      unfold isCharBoundary at hb
      rcases Bool.or_eq_true_iff.1 hb with h0 | hm'
      · have : k = 0 := by simpa using h0
        omega
      · cases hg : t.src[k]? with
        | some b =>
            have hlt : k < t.src.length := by
              have := List.getElem?_eq_some_iff.1 hg
              exact this.1
            omega
        | none =>
            rw [hg] at hm'
            have : k = t.src.length := by simpa using hm'
            exact absurd this hne
    simp [formatToken, hw, hm, hk, hb]

/-- Witness for C2, on the deunicoded-emoji scenario of the source's tests:
the word is the 8 bytes of a two-letter-emoji-two-letter word, the matcher
reports 11 matched bytes (the normalized form is longer than the source), byte
11 is not a boundary, and the whole word is highlighted. -/
theorem highlight_policy_witness :
    formatToken [60] [62] true
      (fun t => if t.src = [71, 111, 240, 159, 146, 188, 111, 100] then some 11 else none)
      ⟨[71, 111, 240, 159, 146, 188, 111, 100], true⟩
      = [60] ++ [71, 111, 240, 159, 146, 188, 111, 100] ++ [62] :=
  (highlight_policy [60] [62]
      (fun t => if t.src = [71, 111, 240, 159, 146, 188, 111, 100] then some 11 else none)
      ⟨[71, 111, 240, 159, 146, 188, 111, 100], true⟩ 11 rfl (by decide)).1
    (Or.inr (by decide))

/-! ### C6: pagination clamp -/

/-- C6: pagination clamp.  The offset passed to the index is
`min(offset ?? 0, 1000)`, the limit passed is
`min(limit, 1000 - min(offset ?? 0, 1000))`, hence the effective limit is at
most `max 0 (1000 - min(offset ?? 0, 1000))` and the effective offset is at
most 1000. -/
theorem pagination_clamp (queryOffset : Option Nat) (queryLimit : Nat) :
    effectiveOffset queryOffset = min (queryOffset.getD 0) 1000
    ∧ effectiveLimit queryOffset queryLimit
        = min queryLimit (1000 - min (queryOffset.getD 0) 1000)
    ∧ effectiveLimit queryOffset queryLimit
        ≤ max 0 (1000 - min (queryOffset.getD 0) 1000)
    ∧ effectiveOffset queryOffset ≤ 1000 := by
  refine ⟨rfl, rfl, ?_, ?_⟩
  · simp [effectiveLimit, effectiveOffset, HARD_RESULT_LIMIT]
  · simp [effectiveOffset, HARD_RESULT_LIMIT]

/-! ### C1 and C3: crop-interval selection -/

/-- The buffer of leading tokens the matcher rejects (the crop pre-scan). -/
def cropBuffer (m : Tok → Option Nat) (toks : List Tok) : List Tok :=
  toks.takeWhile (fun t => (m t).isNone)

/-- The tokens strictly after the first matching token. -/
def cropRest (m : Tok → Option Nat) (toks : List Tok) : List Tok :=
  (toks.dropWhile (fun t => (m t).isNone)).tail

/-- Helper: the crop branch of `format_string` with a match present emits the
optional head marker, then the selected interval, then the optional tail
marker. -/
theorem format_string_crop_some (preTag postTag cropMarker : ByteStr)
    (m : Tok → Option Nat) (highlight : Bool) (cropLen : Nat) (toks : List Tok)
    (p : CropPlan) (hL : 0 < cropLen)
    (hp : cropInterval m cropLen toks = some p) :
    format_string preTag postTag cropMarker m ⟨highlight, some cropLen⟩ toks
      = (if p.markerBefore then cropMarker else [])
        ++ formatTokens preTag postTag highlight m []
            (p.before ++ p.mtok :: p.after)
        ++ (if p.markerAfter then cropMarker else []) := by
  simp only [format_string]
  rw [if_pos hL, hp]
  dsimp only
  rw [formatTokens_append preTag postTag highlight m
      (if p.markerBefore then cropMarker else [])]
  by_cases hma : p.markerAfter = true
  · simp only [if_pos hma, List.append_assoc]
  · simp only [if_neg hma, List.append_nil]

/-- Formalization of C1 (amended).  When some token matches under
`crop = Some L`, `L > 0`:
the head marker is due iff the word count of the buffer exceeds `L / 2`;
the kept leading tokens are a suffix of the buffer holding
`min total_before (L / 2)` words; the interval is centered on the first
matching token; the taken tail is a prefix of the tokens after the match
holding at most `afterBudget` words (exactly `afterBudget` when tokens were
left over); and the tail marker is due iff at least two tokens remain beyond
the taken tail — the bound check of the take consumes one token before the
remaining-token test, so a single leftover token yields no marker. -/
def CropMatchSpec (preTag postTag cropMarker : ByteStr) (m : Tok → Option Nat)
    (highlight : Bool) (cropLen : Nat) (toks : List Tok) (p : CropPlan) :
    Prop :=
  p.markerBefore = decide (cropLen / 2 < countWords (cropBuffer m toks))
  ∧ (∃ skipped, cropBuffer m toks = skipped ++ p.before)
  ∧ countWords p.before = min (countWords (cropBuffer m toks)) (cropLen / 2)
  ∧ (m p.mtok).isSome = true
  ∧ toks = cropBuffer m toks ++ p.mtok :: cropRest m toks
  ∧ cropRest m toks = p.after ++ (cropRest m toks).drop p.after.length
  ∧ countWords p.after ≤ afterBudget cropLen (countWords (cropBuffer m toks))
  ∧ ((cropRest m toks).drop p.after.length ≠ [] →
      countWords p.after
        = afterBudget cropLen (countWords (cropBuffer m toks)))
  ∧ p.markerAfter
      = decide (((cropRest m toks).drop p.after.length).tail ≠ [])
  ∧ format_string preTag postTag cropMarker m ⟨highlight, some cropLen⟩ toks
      = (if p.markerBefore then cropMarker else [])
        ++ formatTokens preTag postTag highlight m []
            (p.before ++ p.mtok :: p.after)
        ++ (if p.markerAfter then cropMarker else [])

/-- C1 (amended): crop interval selection with a match, as stated by
`CropMatchSpec`.  The only deviation from the claim as frozen is the trailing
marker: it is appended iff at least two tokens (not one) remain beyond the
taken tail. -/
theorem crop_interval_selection (preTag postTag cropMarker : ByteStr)
    (m : Tok → Option Nat) (highlight : Bool) (cropLen : Nat)
    (toks : List Tok) (p : CropPlan) (hL : 0 < cropLen)
    (hp : cropInterval m cropLen toks = some p) :
    CropMatchSpec preTag postTag cropMarker m highlight cropLen toks p := by
  have hfs := format_string_crop_some preTag postTag cropMarker m highlight
    cropLen toks p hL hp
  cases hd : toks.dropWhile (fun t => (m t).isNone) with
  | nil =>
      simp only [cropInterval, hd] at hp
      exact Option.noConfusion hp
  | cons mtok afterToks =>
      simp only [cropInterval, hd, Option.some.injEq] at hp
      subst hp
      have hrest : cropRest m toks = afterToks := by
        simp only [cropRest, hd, List.tail_cons]
      refine ⟨rfl, ?_, ?_, ?_, ?_, ?_, ?_, ?_, ?_, hfs⟩
      · exact dropBefore_suffix _ _ _
      · exact dropBefore_countWords _ _ _ rfl
      · have hfalse := dropWhile_head_false hd
        simp only at hfalse
        cases hmm : m mtok with
        | none => rw [hmm] at hfalse; simp at hfalse
        | some k => simp
      · show toks = cropBuffer m toks ++ mtok :: cropRest m toks
        rw [hrest]
        simp only [cropBuffer]
        rw [← hd, List.takeWhile_append_dropWhile]
      · show cropRest m toks = _
        rw [hrest]
        exact (takeAfter_append _ 0 afterToks).symm
      · simpa using takeAfter_countWords
          (afterBudget cropLen (countWords (cropBuffer m toks))) 0 afterToks
      · intro hne
        rw [hrest] at hne
        simpa using takeAfter_countWords_eq _ 0 afterToks (Nat.zero_le _) hne
      · show decide (remAfter _ 0 afterToks ≠ []) = _
        rw [hrest, remAfter_eq]

/-- Concrete matcher for the C1 witness: matches the single-byte word `m`. -/
def mC1w : Tok → Option Nat := fun t => if t.src = [109] then some 1 else none

/-- Token stream for the C1 witness: three words and a separator before the
match, then a separator and three words after it. -/
def toksC1w : List Tok :=
  [⟨[97], true⟩, ⟨[32], false⟩, ⟨[98], true⟩, ⟨[99], true⟩, ⟨[109], true⟩,
   ⟨[32], false⟩, ⟨[100], true⟩, ⟨[101], true⟩, ⟨[102], true⟩]

/-- The interval `cropInterval` selects for the C1 witness at `L = 4`. -/
def planC1w : CropPlan :=
  ⟨[⟨[98], true⟩, ⟨[99], true⟩], ⟨[109], true⟩,
   [⟨[32], false⟩, ⟨[100], true⟩], true, true⟩

/-- Witness for C1: the amended theorem applied at a concrete stream with a
cropped head and a cropped tail. -/
theorem crop_interval_selection_witness :
    0 < 4 ∧ cropInterval mC1w 4 toksC1w = some planC1w
      ∧ CropMatchSpec [60] [62] [46] mC1w false 4 toksC1w planC1w :=
  ⟨by decide, by decide,
    crop_interval_selection [60] [62] [46] mC1w false 4 toksC1w planC1w
      (by decide) (by decide)⟩

/-- Matcher for the C1 counterexample: matches every word token. -/
def mC1cex : Tok → Option Nat := fun t => if t.isWord then some 1 else none

/-- A word followed by a separator. -/
def toksPair : List Tok := [⟨[97], true⟩, ⟨[32], false⟩]

/-- Counterexample to C1 as frozen: with `crop = Some 1` on a matching word
followed by one separator, the taken tail is empty and one token remains
after it, yet no trailing crop marker is appended — the output is the bare
word `[97]`, not `[97] ++ marker` as the claim's trailing-marker rule
(`marker iff at least one token remains after the taken tail`) predicts. -/
theorem crop_tail_marker_cex :
    cropInterval mC1cex 1 toksPair
      = some ⟨[], ⟨[97], true⟩, [], false, false⟩
    ∧ toksPair.drop 1 ≠ []
    ∧ format_string [] [] [46] mC1cex ⟨false, some 1⟩ toksPair = [97]
    ∧ format_string [] [] [46] mC1cex ⟨false, some 1⟩ toksPair
        ≠ [97] ++ [46] := by decide

/-- Formalization of C3 (amended).  With `crop = Some L`, `L > 0` and no
matching token: the emitted prefix is the takes-until-`L`-words prefix of the
stream; it holds at most `L` words, exactly `L` when tokens were left over;
no highlight wrapping occurs even with the highlight option on; and the crop
marker is appended iff at least two tokens (not one) lie beyond the emitted
prefix — the bound check consumes one token before the remaining-token
test. -/
def CropNoMatchSpec (preTag postTag cropMarker : ByteStr)
    (m : Tok → Option Nat) (cropLen : Nat) (toks : List Tok) : Prop :=
  format_string preTag postTag cropMarker m ⟨false, some cropLen⟩ toks
    = ((takeAfter cropLen 0 toks).map Tok.src).flatten
      ++ (if (toks.drop (takeAfter cropLen 0 toks).length).tail ≠ []
          then cropMarker else [])
  ∧ toks = takeAfter cropLen 0 toks
      ++ toks.drop (takeAfter cropLen 0 toks).length
  ∧ countWords (takeAfter cropLen 0 toks) ≤ cropLen
  ∧ (toks.drop (takeAfter cropLen 0 toks).length ≠ [] →
      countWords (takeAfter cropLen 0 toks) = cropLen)
  ∧ format_string preTag postTag cropMarker m ⟨true, some cropLen⟩ toks
      = format_string preTag postTag cropMarker m ⟨false, some cropLen⟩ toks

/-- C3 (amended): crop with no match, as stated by `CropNoMatchSpec`.  The
only deviation from the claim as frozen is the trailing marker: it is
appended iff at least two tokens (not one) remain beyond the emitted
prefix. -/
theorem crop_no_match (preTag postTag cropMarker : ByteStr)
    (m : Tok → Option Nat) (cropLen : Nat) (toks : List Tok)
    (hL : 0 < cropLen) (hnm : ∀ t ∈ toks, m t = none) :
    CropNoMatchSpec preTag postTag cropMarker m cropLen toks := by
  have hd : toks.dropWhile (fun t => (m t).isNone) = [] := by
    rw [List.dropWhile_eq_nil_iff]
    intro t ht
    simp [hnm t ht]
  have hci : cropInterval m cropLen toks = none := by
    simp only [cropInterval, hd]
  have hfs : ∀ hl : Bool,
      format_string preTag postTag cropMarker m ⟨hl, some cropLen⟩ toks
        = ((takeAfter cropLen 0 toks).map Tok.src).flatten
          ++ (if (toks.drop (takeAfter cropLen 0 toks).length).tail ≠ []
              then cropMarker else []) := by
    intro hl
    simp only [format_string]
    rw [if_pos hL, hci, remAfter_eq]
    by_cases hne : (toks.drop (takeAfter cropLen 0 toks).length).tail ≠ []
    · rw [if_pos hne, if_pos hne]
    · rw [if_neg hne, if_neg hne, List.append_nil]
  refine ⟨hfs false, (takeAfter_append _ _ _).symm,
    by simpa using takeAfter_countWords cropLen 0 toks, ?_,
    by rw [hfs true, hfs false]⟩
  intro hne
  simpa using takeAfter_countWords_eq cropLen 0 toks (Nat.zero_le _) hne

/-- The never-matching matcher. -/
def mNone : Tok → Option Nat := fun _ => none

/-- Token stream for the C3 witness: four words with one separator. -/
def toksC3w : List Tok :=
  [⟨[97], true⟩, ⟨[32], false⟩, ⟨[98], true⟩, ⟨[99], true⟩, ⟨[100], true⟩]

/-- Witness for C3: the amended theorem applied at a concrete stream with no
match, a used-up budget and a trailing marker. -/
theorem crop_no_match_witness :
    0 < 2 ∧ (∀ t ∈ toksC3w, mNone t = none)
      ∧ CropNoMatchSpec [60] [62] [46] mNone 2 toksC3w :=
  ⟨by decide, by decide,
    crop_no_match [60] [62] [46] mNone 2 toksC3w (by decide) (by decide)⟩

/-- Counterexample to C3 as frozen: with `crop = Some 1` on a non-matching
word followed by one separator, one further token exists beyond the emitted
prefix `[97]`, yet no crop marker is appended — the output is `[97]`, not
`[97] ++ marker` as the claim's marker rule (`marker iff at least one further
token exists`) predicts. -/
theorem crop_no_match_tail_cex :
    (∀ t ∈ toksPair, mNone t = none)
    ∧ toksPair.drop 1 ≠ []
    ∧ format_string [] [] [46] mNone ⟨false, some 1⟩ toksPair = [97]
    ∧ format_string [] [] [46] mNone ⟨false, some 1⟩ toksPair
        ≠ [97] ++ [46] := by decide

/-! ### C4 and C5: match-info computer -/

/-- Byte offsets of one match, from the source's `MatchInfo`. -/
structure MatchInfo where
  start : Nat
  length : Nat
deriving DecidableEq

/-- JSON values, with numbers carried as their canonical decimal
representation (the bytes that `Number::to_string` produces). -/
inductive Json where
  | null
  | bool (b : Bool)
  | num (digits : ByteStr)
  | str (s : ByteStr)
  | arr (items : List Json)
  | obj (fields : List (String × Json))

/-- The per-token scan of `compute_value_matches` on a string leaf (source
lines 337-348): a running byte cursor starts at 0; every word token the
matcher matches records `MatchInfo { start, length }`; the cursor advances by
the source-slice byte length for every token, word or separator. -/
def tokenMatches (m : Tok → Option Nat) : Nat → List Tok → List MatchInfo
  | _, [] => []
  | start, t :: ts =>
      (if t.isWord then
        match m t with
        | some k => [⟨start, k⟩]
        | none => []
      else [])
      ++ tokenMatches m (start + t.src.length) ts

mutual

/-- Embedding of `compute_value_matches` (source lines 330-361): strings are
analyzed and scanned; arrays and objects recurse, accumulating into the same
list; numbers are stringified and treated as string leaves; other leaves
contribute nothing. -/
def computeValueMatches (A : ByteStr → List Tok) (m : Tok → Option Nat) :
    Json → List MatchInfo
  | .str s => tokenMatches m 0 (A s)
  | .num ds => tokenMatches m 0 (A ds)
  | .arr items => computeListMatches A m items
  | .obj fields => computeObjMatches A m fields
  | _ => []

/-- Recursion of `compute_value_matches` over array elements. -/
def computeListMatches (A : ByteStr → List Tok) (m : Tok → Option Nat) :
    List Json → List MatchInfo
  | [] => []
  | v :: vs => computeValueMatches A m v ++ computeListMatches A m vs

/-- Recursion of `compute_value_matches` over object values. -/
def computeObjMatches (A : ByteStr → List Tok) (m : Tok → Option Nat) :
    List (String × Json) → List MatchInfo
  | [] => []
  | (_, v) :: vs => computeValueMatches A m v ++ computeObjMatches A m vs

end

/-- Every recorded start is at least the running cursor. -/
theorem tokenMatches_start_le (m : Tok → Option Nat) (start : Nat)
    (toks : List Tok) :
    ∀ info ∈ tokenMatches m start toks, start ≤ info.start := by
  induction toks generalizing start with
  | nil => simp [tokenMatches]
  | cons t ts ih =>
      intro info hinfo
      simp only [tokenMatches, List.mem_append] at hinfo
      rcases hinfo with h | h
      · by_cases hw : t.isWord = true
        · cases hmm : m t with
          | none => simp [hw, hmm] at h
          | some k =>
              simp [hw, hmm] at h
              subst h
              exact Nat.le_refl start
        · simp [hw] at h
      · have := ih (start + t.src.length) info h
        omega

/-- Bounds: assuming the matcher never reports more bytes than the source
slice holds, every recorded `start + length` stays within the cursor plus the
total byte length of the scanned tokens. -/
theorem tokenMatches_bounds (m : Tok → Option Nat) (start : Nat)
    (toks : List Tok)
    (hk : ∀ t ∈ toks, ∀ k, m t = some k → k ≤ t.src.length) :
    ∀ info ∈ tokenMatches m start toks,
      info.start + info.length
        ≤ start + ((toks.map Tok.src).flatten).length := by
  induction toks generalizing start with
  | nil => simp [tokenMatches]
  | cons t ts ih =>
      intro info hinfo
      simp only [tokenMatches, List.mem_append] at hinfo
      have hlen : ((t :: ts).map Tok.src).flatten.length
          = t.src.length + ((ts.map Tok.src).flatten).length := by simp
      rcases hinfo with h | h
      · by_cases hw : t.isWord = true
        · cases hmm : m t with
          | none => simp [hw, hmm] at h
          | some k =>
              simp [hw, hmm] at h
              subst h
              have hkk := hk t (List.mem_cons_self t ts) k hmm
              show start + k ≤ start + ((t :: ts).map Tok.src).flatten.length
              rw [hlen]
              omega
        · simp [hw] at h
      · have := ih (start + t.src.length)
          (fun t' ht' => hk t' (List.mem_cons_of_mem _ ht')) info h
        rw [hlen]
        omega

/-- Monotonicity: assuming word tokens have non-empty source slices, recorded
starts are strictly increasing. -/
theorem tokenMatches_chain (m : Tok → Option Nat) (start : Nat)
    (toks : List Tok)
    (hw1 : ∀ t ∈ toks, t.isWord = true → t.src ≠ []) :
    List.Chain' (fun a b : MatchInfo => a.start < b.start)
      (tokenMatches m start toks) := by
  induction toks generalizing start with
  | nil => simp [tokenMatches]
  | cons t ts ih =>
      have hrec := ih (start + t.src.length)
        (fun t' h' => hw1 t' (List.mem_cons_of_mem _ h'))
      by_cases hw : t.isWord = true
      · cases hmm : m t with
        | none => simpa only [tokenMatches, hw, hmm, reduceIte,
            List.nil_append] using hrec
        | some k =>
            have hne : t.src ≠ [] := hw1 t (List.mem_cons_self t ts) hw
            have hpos : 1 ≤ t.src.length := by
              cases hsrc : t.src with
              | nil => exact absurd hsrc hne
              | cons b bs => simp [hsrc]
            simp only [tokenMatches, hw, hmm, reduceIte, List.singleton_append]
            rw [List.chain'_cons']
            refine ⟨?_, hrec⟩
            intro y hy
            have hmem : y ∈ tokenMatches m (start + t.src.length) ts :=
              List.mem_of_mem_head? hy
            have := tokenMatches_start_le m (start + t.src.length) ts y hmem
            show start < y.start
            omega
      · simpa only [tokenMatches, hw, Bool.false_eq_true, if_false,
          List.nil_append] using hrec

/-- Formalization of C4.  Under the matcher contract (reported prefix length
at most the source-slice byte length) and the analyzer contract (its token
slices cover the string exactly, and word tokens are non-empty), every
`MatchInfo` recorded for a string leaf stays within the string's byte length,
and successive starts are strictly increasing. -/
def MatchBoundsSpec (A : ByteStr → List Tok) (m : Tok → Option Nat)
    (s : ByteStr) : Prop :=
  (∀ info ∈ computeValueMatches A m (.str s),
    info.start + info.length ≤ s.length)
  ∧ List.Chain' (fun a b : MatchInfo => a.start < b.start)
      (computeValueMatches A m (.str s))

/-- C4: match-info bounds and monotonicity for a string leaf. -/
theorem match_info_bounds (A : ByteStr → List Tok) (m : Tok → Option Nat)
    (s : ByteStr)
    (hcov : ((A s).map Tok.src).flatten = s)
    (hk : ∀ t ∈ A s, ∀ k, m t = some k → k ≤ t.src.length)
    (hw1 : ∀ t ∈ A s, t.isWord = true → t.src ≠ []) :
    MatchBoundsSpec A m s := by
  have he : computeValueMatches A m (.str s) = tokenMatches m 0 (A s) := rfl
  constructor
  · intro info hinfo
    rw [he] at hinfo
    have := tokenMatches_bounds m 0 (A s) hk info hinfo
    rw [hcov] at this
    omega
  · rw [he]
    exact tokenMatches_chain m 0 (A s) hw1

/-- Concrete analyzer for the C4 witness: two words around a separator. -/
def analyzerC4 : ByteStr → List Tok :=
  fun _ => [⟨[105, 115], true⟩, ⟨[32], false⟩, ⟨[105], true⟩]

/-- Concrete matcher for the C4 witness. -/
def mC4 : Tok → Option Nat :=
  fun t => if t.src = [105] then some 1 else
    if t.src = [105, 115] then some 2 else none

/-- Witness for C4: coverage, the matcher bound and the word-nonemptiness
contract hold at a concrete analyzed string, so the bounds and monotonicity
follow. -/
theorem match_info_bounds_witness :
    ((analyzerC4 [105, 115, 32, 105]).map Tok.src).flatten = [105, 115, 32, 105]
    ∧ MatchBoundsSpec analyzerC4 mC4 [105, 115, 32, 105] :=
  ⟨by decide,
    match_info_bounds analyzerC4 mC4 [105, 115, 32, 105] (by decide)
      (by
        intro t ht k hk
        fin_cases ht <;> simp_all [mC4])
      (by decide)⟩

/-! ### C5: separator noninterference -/

/-- Two matchers that agree on every word token. -/
def agreeOnWords (m1 m2 : Tok → Option Nat) : Prop :=
  ∀ t : Tok, t.isWord = true → m1 t = m2 t

/-- The string-leaf scan consults the matcher only on word tokens. -/
theorem tokenMatches_agree (m1 m2 : Tok → Option Nat)
    (h : agreeOnWords m1 m2) (start : Nat) (toks : List Tok) :
    tokenMatches m1 start toks = tokenMatches m2 start toks := by
  induction toks generalizing start with
  | nil => rfl
  | cons t ts ih =>
      simp only [tokenMatches]
      rw [ih]
      congr 1
      by_cases hw : t.isWord = true
      · rw [h t hw]
      · simp [hw]

mutual

/-- The whole match-info computation consults the matcher only on word
tokens. -/
theorem computeValueMatches_agree (A : ByteStr → List Tok)
    (m1 m2 : Tok → Option Nat) (h : agreeOnWords m1 m2) :
    ∀ v : Json, computeValueMatches A m1 v = computeValueMatches A m2 v
  | .null => rfl
  | .bool _ => rfl
  | .num ds => tokenMatches_agree m1 m2 h 0 (A ds)
  | .str s => tokenMatches_agree m1 m2 h 0 (A s)
  | .arr items => computeListMatches_agree A m1 m2 h items
  | .obj fields => computeObjMatches_agree A m1 m2 h fields

/-- Array-elements case of `computeValueMatches_agree`. -/
theorem computeListMatches_agree (A : ByteStr → List Tok)
    (m1 m2 : Tok → Option Nat) (h : agreeOnWords m1 m2) :
    ∀ l : List Json, computeListMatches A m1 l = computeListMatches A m2 l
  | [] => rfl
  | v :: vs => by
      simp only [computeListMatches]
      rw [computeValueMatches_agree A m1 m2 h v,
        computeListMatches_agree A m1 m2 h vs]

/-- Object-values case of `computeValueMatches_agree`. -/
theorem computeObjMatches_agree (A : ByteStr → List Tok)
    (m1 m2 : Tok → Option Nat) (h : agreeOnWords m1 m2) :
    ∀ l : List (String × Json),
      computeObjMatches A m1 l = computeObjMatches A m2 l
  | [] => rfl
  | (_, v) :: vs => by
      simp only [computeObjMatches]
      rw [computeValueMatches_agree A m1 m2 h v,
        computeObjMatches_agree A m1 m2 h vs]

end

/-- Highlight emission consults the matcher only on word tokens. -/
theorem formatToken_agree (preTag postTag : ByteStr) (hl : Bool)
    (m1 m2 : Tok → Option Nat) (h : agreeOnWords m1 m2) (t : Tok) :
    formatToken preTag postTag hl m1 t = formatToken preTag postTag hl m2 t := by
  by_cases hw : t.isWord = true
  · simp only [formatToken, h t hw]
  · simp [formatToken, hw]

/-- The interval fold consults the matcher only on word tokens. -/
theorem formatTokens_agree (preTag postTag : ByteStr) (hl : Bool)
    (m1 m2 : Tok → Option Nat) (h : agreeOnWords m1 m2) (init : ByteStr)
    (ts : List Tok) :
    formatTokens preTag postTag hl m1 init ts
      = formatTokens preTag postTag hl m2 init ts := by
  induction ts generalizing init with
  | nil => rfl
  | cons t ts ih =>
      have e1 : formatTokens preTag postTag hl m1 init (t :: ts)
          = formatTokens preTag postTag hl m1
              (init ++ formatToken preTag postTag hl m1 t) ts := rfl
      have e2 : formatTokens preTag postTag hl m2 init (t :: ts)
          = formatTokens preTag postTag hl m2
              (init ++ formatToken preTag postTag hl m2 t) ts := rfl
      rw [e1, e2, formatToken_agree preTag postTag hl m1 m2 h t, ih]

/-- Formalization of C5 (amended).  Matchers that agree on word tokens give
identical match-info for every value, and identical `format_string` output
whenever cropping is disabled (`crop = None` or `Some 0`).  With an active
crop the pre-scan consults the matcher on every token, so outputs may differ
(see the counterexample). -/
def SeparatorAgnosticSpec (A : ByteStr → List Tok)
    (m1 m2 : Tok → Option Nat) : Prop :=
  (∀ v : Json, computeValueMatches A m1 v = computeValueMatches A m2 v)
  ∧ (∀ preTag postTag cropMarker : ByteStr, ∀ hl : Bool, ∀ toks : List Tok,
      format_string preTag postTag cropMarker m1 ⟨hl, none⟩ toks
        = format_string preTag postTag cropMarker m2 ⟨hl, none⟩ toks)
  ∧ (∀ preTag postTag cropMarker : ByteStr, ∀ hl : Bool, ∀ toks : List Tok,
      format_string preTag postTag cropMarker m1 ⟨hl, some 0⟩ toks
        = format_string preTag postTag cropMarker m2 ⟨hl, some 0⟩ toks)

/-- C5 (amended): separator noninterference holds for the match-info computer
and for highlighting, but only with cropping disabled. -/
theorem separator_noninterference (A : ByteStr → List Tok)
    (m1 m2 : Tok → Option Nat) (h : agreeOnWords m1 m2) :
    SeparatorAgnosticSpec A m1 m2 := by
  refine ⟨computeValueMatches_agree A m1 m2 h, ?_, ?_⟩
  · intro preTag postTag cropMarker hl toks
    exact formatTokens_agree preTag postTag hl m1 m2 h [] toks
  · intro preTag postTag cropMarker hl toks
    exact formatTokens_agree preTag postTag hl m1 m2 h [] toks

/-- Witness for C5: the theorem applied with two (equal) matchers that
trivially agree on word tokens. -/
theorem separator_noninterference_witness :
    agreeOnWords mNone mNone
    ∧ SeparatorAgnosticSpec analyzerC4 mNone mNone :=
  ⟨fun _ _ => rfl,
    separator_noninterference analyzerC4 mNone mNone (fun _ _ => rfl)⟩

/-- Matcher for the C5 counterexample that matches nothing. -/
def m1C5 : Tok → Option Nat := fun _ => none

/-- Matcher for the C5 counterexample that matches only separator tokens. -/
def m2C5 : Tok → Option Nat := fun t => if t.isWord then none else some 1

/-- Token stream for the C5 counterexample. -/
def toksC5 : List Tok := [⟨[97], true⟩, ⟨[32], false⟩, ⟨[98], true⟩]

/-- Counterexample to C5 as frozen: `m1C5` and `m2C5` agree on every word
token yet produce different `format_string` outputs under `crop = Some 1`,
because the crop pre-scan (source line 662) consults the matcher on every
token, separators included: under `m2C5` the separator becomes the matched
center of the crop interval. -/
theorem separator_noninterference_cex :
    agreeOnWords m1C5 m2C5
    ∧ format_string [] [] [46] m1C5 ⟨false, some 1⟩ toksC5
        ≠ format_string [] [] [46] m2C5 ⟨false, some 1⟩ toksC5 := by
  constructor
  · intro t hw
    simp [m1C5, m2C5, hw]
  · decide

/-! ### C10: attribute-name resolution and FormatPlan construction -/

/-- Field identifiers from the fields-id map. -/
abbrev FieldId := Nat

/-- Sorted insertion into a duplicate-free sorted list: the model of
`BTreeSet::insert`. -/
def insertSorted : List FieldId → FieldId → List FieldId
  | [], i => [i]
  | x :: xs, i =>
      if i < x then i :: x :: xs
      else if i = x then x :: xs
      else x :: insertSorted xs i

/-- The model of `BTreeSet::intersection` with the displayed set: keep the
members of `s` that are displayed. -/
def setIntersect (s d : List FieldId) : List FieldId :=
  s.filter (fun i => decide (i ∈ d))

/-- The `fids` closure of `perform_search` (source lines 174-187): walk the
requested attribute names; at `"*"` the result becomes the whole displayed
set and the walk stops; otherwise a name found in the fields-id map inserts
its id (with no displayed-set check at this point). -/
def fids (idOf : String → Option FieldId) (displayed : List FieldId) :
    List String → List FieldId → List FieldId
  | [], ids => ids
  | attr :: rest, ids =>
      if attr = "*" then displayed
      else
        match idOf attr with
        | some id => fids idOf displayed rest (insertSorted ids id)
        | none => fids idOf displayed rest ids

/-- The ids retrieved for a query (source lines 193-200): the requested
attributes resolved by `fids` (all displayed by default), intersected with the
displayed set. -/
def toRetrieveIds (idOf : String → Option FieldId) (displayed : List FieldId)
    (attrsToRetrieve : Option (List String)) : List FieldId :=
  setIntersect
    ((attrsToRetrieve.map (fun attrs => fids idOf displayed attrs [])).getD
      displayed)
    displayed

/-- The FormatPlan: the model of the `BTreeMap<FieldId, FormatOptions>` of
`compute_formatted_options`, as a key-sorted association list. -/
abbrev FMap := List (FieldId × FormatOptions)

/-- `BTreeMap::insert`: set or overwrite. -/
def FMap.insert : FMap → FieldId → FormatOptions → FMap
  | [], k, v => [(k, v)]
  | (k', v') :: rest, k, v =>
      if k < k' then (k, v) :: (k', v') :: rest
      else if k = k' then (k, v) :: rest
      else (k', v') :: FMap.insert rest k v

/-- `entry(id).and_modify(|f| f.crop = Some(len)).or_insert({highlight: false,
crop: Some(len)})` (source lines 442-448 and 454-461). -/
def FMap.cropUpsert : FMap → FieldId → Nat → FMap
  | [], k, len => [(k, ⟨false, some len⟩)]
  | (k', v') :: rest, k, len =>
      if k < k' then (k, ⟨false, some len⟩) :: (k', v') :: rest
      else if k = k' then (k', ⟨v'.highlight, some len⟩) :: rest
      else (k', v') :: FMap.cropUpsert rest k len

/-- `entry(id).or_insert(...)` (source lines 470-475). -/
def FMap.orInsert : FMap → FieldId → FormatOptions → FMap
  | [], k, v => [(k, v)]
  | (k', v') :: rest, k, v =>
      if k < k' then (k, v) :: (k', v') :: rest
      else if k = k' then (k', v') :: rest
      else (k', v') :: FMap.orInsert rest k v

/-- Embedding of `add_highlight_to_formatted_options` (source lines 396-421):
`"*"` sets `{highlight: true, crop: None}` on every displayed id and stops;
a named attribute is resolved and, when displayed, set/overwritten. -/
def add_highlight_to_formatted_options (idOf : String → Option FieldId)
    (displayed : List FieldId) : List String → FMap → FMap
  | [], fo => fo
  | attr :: rest, fo =>
      if attr = "*" then
        displayed.foldl (fun fo id => fo.insert id ⟨true, none⟩) fo
      else
        match idOf attr with
        | some id =>
            if id ∈ displayed then
              add_highlight_to_formatted_options idOf displayed rest
                (fo.insert id ⟨true, none⟩)
            else add_highlight_to_formatted_options idOf displayed rest fo
        | none => add_highlight_to_formatted_options idOf displayed rest fo

/-- Split a list at the last occurrence of a separator character: the model
of `rsplitn(2, sep)` yielding two fragments. -/
def rsplitOnce (sep : Char) : List Char → Option (List Char × List Char)
  | [] => none
  | c :: cs =>
      match rsplitOnce sep cs with
      | some (b, a) => some (c :: b, a)
      | none => if c = sep then some ([], cs) else none

/-- Rust's `usize::from_str` on the crop-length fragment: an optional leading
plus sign followed by at least one digit (overflow, which would also fail, is
not modelled since `Nat` is unbounded). -/
def parseUsize (cs : List Char) : Option Nat :=
  let ds := match cs with
    | '+' :: rest => rest
    | _ => cs
  if ds ≠ [] ∧ ds.all Char.isDigit then
    some (ds.foldl (fun n c => n * 10 + (c.toNat - 48)) 0)
  else none

/-- The `name[:len]` parsing of a crop attribute (source lines 431-438):
split at the last `:`; a parse failure of the length fragment falls back to
the query's crop length; no colon means the whole attribute is the name. -/
def splitCropAttr (cropLength : Nat) (attr : String) : String × Nat :=
  match rsplitOnce ':' attr.data with
  | some (name, lenStr) => (String.mk name, (parseUsize lenStr).getD cropLength)
  | none => (attr, cropLength)

/-- The per-attribute body of `add_crop_to_formatted_options` (source lines
430-462): the attribute is split into name and length; a `"*"` name upserts
the crop length on every displayed id; independently, a resolved displayed
name upserts the crop length. -/
def cropStep (idOf : String → Option FieldId) (displayed : List FieldId)
    (cropLength : Nat) (attr : String) (fo : FMap) : FMap :=
  let p := splitCropAttr cropLength attr
  let fo1 := if p.1 = "*" then
      displayed.foldl (fun fo id => fo.cropUpsert id p.2) fo
    else fo
  match idOf p.1 with
  | some id => if id ∈ displayed then fo1.cropUpsert id p.2 else fo1
  | none => fo1

/-- Embedding of `add_crop_to_formatted_options` (source lines 423-464): the
fold of `cropStep` over the crop attributes. -/
def add_crop_to_formatted_options (idOf : String → Option FieldId)
    (displayed : List FieldId) (cropLength : Nat) : List String → FMap → FMap
  | [], fo => fo
  | attr :: rest, fo =>
      add_crop_to_formatted_options idOf displayed cropLength rest
        (cropStep idOf displayed cropLength attr fo)

/-- Embedding of `add_non_formatted_ids_to_formatted_options` (source lines
466-476). -/
def add_non_formatted_ids_to_formatted_options (fo : FMap)
    (toRetrieve : List FieldId) : FMap :=
  toRetrieve.foldl (fun fo id => fo.orInsert id ⟨false, none⟩) fo

/-- Embedding of `compute_formatted_options` (source lines 363-394):
highlights, then crops, then — only when the plan is non-empty — the
retrieve fill. -/
def compute_formatted_options (idOf : String → Option FieldId)
    (displayed : List FieldId) (attrToHighlight : List String)
    (attrToCrop : List String) (queryCropLength : Nat)
    (toRetrieve : List FieldId) : FMap :=
  let fo := add_highlight_to_formatted_options idOf displayed attrToHighlight []
  let fo := add_crop_to_formatted_options idOf displayed queryCropLength
    attrToCrop fo
  if fo ≠ [] then add_non_formatted_ids_to_formatted_options fo toRetrieve
  else fo

/-- Membership in a sorted insertion. -/
theorem mem_insertSorted (s : List FieldId) (i x : FieldId) :
    x ∈ insertSorted s i ↔ x = i ∨ x ∈ s := by
  induction s with
  | nil => simp [insertSorted]
  | cons y ys ih =>
      simp only [insertSorted]
      split_ifs with h1 h2
      · simp [List.mem_cons]
      · subst h2
        simp [List.mem_cons]
      · simp only [List.mem_cons, ih]
        tauto

/-- Membership characterization of `fids`: a `"*"` entry yields the displayed
set; otherwise the result holds the accumulator plus every id a listed name
resolves to. -/
theorem fids_mem (idOf : String → Option FieldId) (displayed : List FieldId)
    (l : List String) (x : FieldId) : ∀ acc : List FieldId,
    (x ∈ fids idOf displayed l acc
      ↔ (("*" ∈ l) ∧ x ∈ displayed)
        ∨ (¬ ("*" ∈ l) ∧ (x ∈ acc ∨ ∃ attr ∈ l, idOf attr = some x))) := by
  induction l with
  | nil =>
      intro acc
      simp [fids]
  | cons b rest ih =>
      intro acc
      by_cases hb : b = "*"
      · subst hb
        simp [fids]
      · cases hio : idOf b with
        | some id =>
            have he : fids idOf displayed (b :: rest) acc
                = fids idOf displayed rest (insertSorted acc id) := by
              simp [fids, hb, hio]
            rw [he, ih (insertSorted acc id)]
            simp only [List.mem_cons, mem_insertSorted, hio]
            constructor
            · rintro (⟨hs, hd⟩ | ⟨hs, hx⟩)
              · exact Or.inl ⟨Or.inr hs, hd⟩
              · rcases hx with (rfl | hx) | hx
                · exact Or.inr ⟨by tauto, Or.inr ⟨b, Or.inl rfl, hio⟩⟩
                · exact Or.inr ⟨by tauto, Or.inl hx⟩
                · obtain ⟨attr, hattr, hid⟩ := hx
                  exact Or.inr ⟨by tauto, Or.inr ⟨attr, Or.inr hattr, hid⟩⟩
            · rintro (⟨hs, hd⟩ | ⟨hs, hx⟩)
              · rcases hs with hs | hs
                · exact absurd hs.symm hb
                · exact Or.inl ⟨hs, hd⟩
              · refine Or.inr ⟨by tauto, ?_⟩
                rcases hx with hx | ⟨attr, hattr, hid⟩
                · exact Or.inl (Or.inr hx)
                · rcases hattr with rfl | hattr
                  · rw [hio] at hid
                    exact Or.inl (Or.inl (Option.some.inj hid).symm)
                  · exact Or.inr ⟨attr, hattr, hid⟩
        | none =>
            have he : fids idOf displayed (b :: rest) acc
                = fids idOf displayed rest acc := by
              simp [fids, hb, hio]
            rw [he, ih acc]
            simp only [List.mem_cons]
            constructor
            · rintro (⟨hs, hd⟩ | ⟨hs, hx⟩)
              · exact Or.inl ⟨Or.inr hs, hd⟩
              · refine Or.inr ⟨by tauto, ?_⟩
                rcases hx with hx | ⟨attr, hattr, hid⟩
                · exact Or.inl hx
                · exact Or.inr ⟨attr, Or.inr hattr, hid⟩
            · rintro (⟨hs, hd⟩ | ⟨hs, hx⟩)
              · rcases hs with hs | hs
                · exact absurd hs.symm hb
                · exact Or.inl ⟨hs, hd⟩
              · refine Or.inr ⟨by tauto, ?_⟩
                rcases hx with hx | ⟨attr, hattr, hid⟩
                · exact Or.inl hx
                · rcases hattr with rfl | hattr
                  · rw [hio] at hid
                    exact Option.noConfusion hid
                  · exact Or.inr ⟨attr, hattr, hid⟩

/-- An attribute entry that is not `"*"` and resolves to no displayed field:
absent from the fields-id map, or mapped to an id outside the displayed
set. -/
def deadAttr (idOf : String → Option FieldId) (displayed : List FieldId)
    (a : String) : Prop :=
  a ≠ "*" ∧ ∀ i, idOf a = some i → i ∉ displayed

/-- A dead entry changes nothing in the highlight pass. -/
theorem add_highlight_dead (idOf : String → Option FieldId)
    (displayed : List FieldId) (a : String)
    (ha : deadAttr idOf displayed a) (l1 l2 : List String) : ∀ fo : FMap,
    add_highlight_to_formatted_options idOf displayed (l1 ++ a :: l2) fo
      = add_highlight_to_formatted_options idOf displayed (l1 ++ l2) fo := by
  induction l1 with
  | nil =>
      intro fo
      simp only [List.nil_append]
      cases hio : idOf a with
      | some id =>
          have hnd : ¬ id ∈ displayed := ha.2 id hio
          simp [add_highlight_to_formatted_options, ha.1, hio, hnd]
      | none =>
          simp [add_highlight_to_formatted_options, ha.1, hio]
  | cons b rest ih =>
      intro fo
      by_cases hb : b = "*"
      · simp [add_highlight_to_formatted_options, hb]
      · cases hio : idOf b with
        | some id =>
            by_cases hd : id ∈ displayed
            · simp [add_highlight_to_formatted_options, hb, hio, hd, ih]
            · simp [add_highlight_to_formatted_options, hb, hio, hd, ih]
        | none =>
            simp [add_highlight_to_formatted_options, hb, hio, ih]

/-- A dead entry (judged on its parsed name) changes nothing in the crop
pass. -/
theorem add_crop_dead (idOf : String → Option FieldId)
    (displayed : List FieldId) (cropLen : Nat) (b : String)
    (hb : deadAttr idOf displayed (splitCropAttr cropLen b).1)
    (l1 l2 : List String) : ∀ fo : FMap,
    add_crop_to_formatted_options idOf displayed cropLen (l1 ++ b :: l2) fo
      = add_crop_to_formatted_options idOf displayed cropLen (l1 ++ l2) fo := by
  have hstep : ∀ fo : FMap, cropStep idOf displayed cropLen b fo = fo := by
    intro fo
    cases hio : idOf (splitCropAttr cropLen b).1 with
    | some id =>
        have hnd : ¬ id ∈ displayed := hb.2 id hio
        simp [cropStep, hb.1, hio, hnd]
    | none =>
        simp [cropStep, hb.1, hio]
  induction l1 with
  | nil =>
      intro fo
      show add_crop_to_formatted_options idOf displayed cropLen l2
          (cropStep idOf displayed cropLen b fo)
        = add_crop_to_formatted_options idOf displayed cropLen l2 fo
      rw [hstep]
  | cons c rest ih =>
      intro fo
      show add_crop_to_formatted_options idOf displayed cropLen (rest ++ b :: l2)
          (cropStep idOf displayed cropLen c fo)
        = add_crop_to_formatted_options idOf displayed cropLen (rest ++ l2)
          (cropStep idOf displayed cropLen c fo)
      exact ih _

/-- C10: unknown or undisplayed attribute names are ignored.  An entry of
`attributesToRetrieve` that is not `"*"` and resolves to no displayed field
contributes no id to the retrieved projection; such an entry of
`attributesToHighlight`, or of `attributesToCrop` (judged on its parsed
name), leaves the FormatPlan untouched.  All three passes are total, so such
entries never make `perform_search` fail. -/
theorem unknown_attributes_ignored (idOf : String → Option FieldId)
    (displayed : List FieldId) (a b : String) (cropLen : Nat)
    (l1 l2 h1 h2 c1 c2 : List String) (fo : FMap)
    (ha : deadAttr idOf displayed a)
    (hb : deadAttr idOf displayed (splitCropAttr cropLen b).1) :
    (∀ x, x ∈ toRetrieveIds idOf displayed (some (l1 ++ a :: l2))
        ↔ x ∈ toRetrieveIds idOf displayed (some (l1 ++ l2)))
    ∧ add_highlight_to_formatted_options idOf displayed (h1 ++ a :: h2) fo
        = add_highlight_to_formatted_options idOf displayed (h1 ++ h2) fo
    ∧ add_crop_to_formatted_options idOf displayed cropLen (c1 ++ b :: c2) fo
        = add_crop_to_formatted_options idOf displayed cropLen (c1 ++ c2) fo := by
  refine ⟨?_, add_highlight_dead idOf displayed a ha h1 h2 fo,
    add_crop_dead idOf displayed cropLen b hb c1 c2 fo⟩
  intro x
  have hred : ∀ l : List String, toRetrieveIds idOf displayed (some l)
      = (fids idOf displayed l []).filter
          (fun i => decide (i ∈ displayed)) := fun _ => rfl
  rw [hred, hred]
  simp only [List.mem_filter, decide_eq_true_eq]
  constructor
  · rintro ⟨hx, hd⟩
    refine ⟨?_, hd⟩
    rw [fids_mem] at hx ⊢
    rcases hx with ⟨hs, hds⟩ | ⟨hs, hacc | ⟨attr, hattr, hid⟩⟩
    · refine Or.inl ⟨?_, hds⟩
      simp only [List.mem_append, List.mem_cons] at hs ⊢
      rcases hs with hs | rfl | hs
      · exact Or.inl hs
      · exact absurd rfl ha.1
      · exact Or.inr hs
    · exact absurd hacc (List.not_mem_nil x)
    · simp only [List.mem_append, List.mem_cons] at hattr
      rcases hattr with hattr | rfl | hattr
      · refine Or.inr ⟨?_, Or.inr ⟨attr, List.mem_append_left _ hattr, hid⟩⟩
        intro hstar
        simp only [List.mem_append, List.mem_cons] at hs
        exact hs (by
          simp only [List.mem_append] at hstar
          tauto)
      · exact absurd hd (ha.2 x hid)
      · refine Or.inr ⟨?_, Or.inr ⟨attr, List.mem_append_right _ hattr, hid⟩⟩
        intro hstar
        simp only [List.mem_append, List.mem_cons] at hs
        exact hs (by
          simp only [List.mem_append] at hstar
          tauto)
  · rintro ⟨hx, hd⟩
    refine ⟨?_, hd⟩
    rw [fids_mem] at hx ⊢
    rcases hx with ⟨hs, hds⟩ | ⟨hs, hacc | ⟨attr, hattr, hid⟩⟩
    · refine Or.inl ⟨?_, hds⟩
      simp only [List.mem_append, List.mem_cons] at hs ⊢
      tauto
    · exact absurd hacc (List.not_mem_nil x)
    · simp only [List.mem_append] at hattr
      refine Or.inr ⟨?_, Or.inr ⟨attr, ?_, hid⟩⟩
      · intro hstar
        simp only [List.mem_append, List.mem_cons] at hstar hs
        rcases hstar with hstar | rfl | hstar
        · exact hs (Or.inl hstar)
        · exact ha.1 rfl
        · exact hs (Or.inr hstar)
      · simp only [List.mem_append, List.mem_cons]
        tauto

/-- Fields-id map for the C10 witness. -/
def idOfC10 : String → Option FieldId :=
  fun s => if s = "title" then some 0 else
    if s = "ghost" then some 5 else none

/-- Witness for C10: an unmapped retrieve/highlight entry and a crop entry
whose parsed name maps outside the displayed set are both ignored. -/
theorem unknown_attributes_ignored_witness :
    deadAttr idOfC10 [0] "bogus"
    ∧ deadAttr idOfC10 [0] (splitCropAttr 10 "ghost:7").1
    ∧ ((∀ x, x ∈ toRetrieveIds idOfC10 [0] (some (["title"] ++ "bogus" :: []))
          ↔ x ∈ toRetrieveIds idOfC10 [0] (some (["title"] ++ [])))
      ∧ add_highlight_to_formatted_options idOfC10 [0]
            (["title"] ++ "bogus" :: []) []
          = add_highlight_to_formatted_options idOfC10 [0] (["title"] ++ []) []
      ∧ add_crop_to_formatted_options idOfC10 [0] 10
            ([] ++ "ghost:7" :: ["title:2"]) []
          = add_crop_to_formatted_options idOfC10 [0] 10
            ([] ++ ["title:2"]) []) := by
  have hA : deadAttr idOfC10 [0] "bogus" := by
    refine ⟨by decide, fun i h => ?_⟩
    simp [idOfC10] at h
  have hB : deadAttr idOfC10 [0] (splitCropAttr 10 "ghost:7").1 := by
    refine ⟨by decide, fun i h => ?_⟩
    have hname : (splitCropAttr 10 "ghost:7").1 = "ghost" := by decide
    rw [hname] at h
    simp [idOfC10] at h
    subst h
    decide
  exact ⟨hA, hB,
    unknown_attributes_ignored idOfC10 [0] "bogus" "ghost:7" 10
      ["title"] [] ["title"] [] [] ["title:2"] [] hA hB⟩

/-! ### C7: formatted emptiness -/

/-- Modelled from the spec: `milli::is_faceted_by` (an external collaborator):
`name` is governed by `key` iff the two are equal or `key` followed by a dot
is a prefix of `name` (dotted-path prefix match). -/
def isFacetedBy (name key : String) : Bool :=
  name.data == key.data || List.isPrefixOf (key.data ++ ['.']) name.data

/-- Modelled from the spec: `permissive_json_pointer::select_values` (code of
this repository that is not under src/), on documents modelled as flat
ordered field lists: keep, in document order, the fields selected by a
selector name under the dotted-path prefix match in either direction. -/
def selectValues (doc : List (String × Json)) (selectors : List String) :
    List (String × Json) :=
  doc.filter (fun kv =>
    selectors.any (fun sel => isFacetedBy kv.1 sel || isFacetedBy sel kv.1))

mutual

/-- Embedding of `Formatter::format_value` (source lines 592-643): strings
are formatted; arrays and objects recurse with `crop` cleared and `highlight`
propagated; numbers are stringified, formatted, and become strings; other
values pass through unchanged. -/
def format_value (A : ByteStr → List Tok) (preTag postTag cropMarker : ByteStr)
    (m : Tok → Option Nat) : FormatOptions → Json → Json
  | opts, .str s => .str (format_string preTag postTag cropMarker m opts (A s))
  | opts, .num ds => .str (format_string preTag postTag cropMarker m opts (A ds))
  | opts, .arr items =>
      .arr (formatJsonList A preTag postTag cropMarker m
        ⟨opts.highlight, none⟩ items)
  | opts, .obj fields =>
      .obj (formatJsonObj A preTag postTag cropMarker m
        ⟨opts.highlight, none⟩ fields)
  | _, v => v

/-- Array case of `format_value`. -/
def formatJsonList (A : ByteStr → List Tok) (preTag postTag cropMarker : ByteStr)
    (m : Tok → Option Nat) : FormatOptions → List Json → List Json
  | _, [] => []
  | opts, v :: vs =>
      format_value A preTag postTag cropMarker m opts v
        :: formatJsonList A preTag postTag cropMarker m opts vs

/-- Object case of `format_value`. -/
def formatJsonObj (A : ByteStr → List Tok) (preTag postTag cropMarker : ByteStr)
    (m : Tok → Option Nat) : FormatOptions → List (String × Json) →
      List (String × Json)
  | _, [] => []
  | opts, (k, v) :: vs =>
      (k, format_value A preTag postTag cropMarker m opts v)
        :: formatJsonObj A preTag postTag cropMarker m opts vs

end

/-- Embedding of `format_fields` (source lines 509-553) over flat documents:
select the fields named by the plan, then transform each selected value with
the merge of every plan entry whose name matches the field under the
symmetric dotted-path prefix test. -/
def format_fields (A : ByteStr → List Tok) (preTag postTag cropMarker : ByteStr)
    (fieldName : FieldId → String) (m : Tok → Option Nat) (fo : FMap)
    (doc : List (String × Json)) : List (String × Json) :=
  let selectors := fo.map (fun p => fieldName p.1)
  let selected := selectValues doc selectors
  selected.map (fun kv =>
    (kv.1,
      format_value A preTag postTag cropMarker m
        (fo.foldl (fun acc p =>
          if isFacetedBy (fieldName p.1) kv.1 || isFacetedBy kv.1 (fieldName p.1)
          then acc.merge p.2 else acc) ⟨false, none⟩)
        kv.2))

/-- The per-attribute step of the crop pass is a no-op on a dead entry. -/
theorem cropStep_dead (idOf : String → Option FieldId)
    (displayed : List FieldId) (cropLen : Nat) (b : String)
    (hb : deadAttr idOf displayed (splitCropAttr cropLen b).1) :
    ∀ fo : FMap, cropStep idOf displayed cropLen b fo = fo := by
  intro fo
  cases hio : idOf (splitCropAttr cropLen b).1 with
  | some id =>
      have hnd : ¬ id ∈ displayed := hb.2 id hio
      simp [cropStep, hb.1, hio, hnd]
  | none =>
      simp [cropStep, hb.1, hio]

/-- When every highlight attribute is dead, the highlight pass changes
nothing. -/
theorem add_highlight_all_dead (idOf : String → Option FieldId)
    (displayed : List FieldId) (attrs : List String)
    (h : ∀ attr ∈ attrs, deadAttr idOf displayed attr) : ∀ fo : FMap,
    add_highlight_to_formatted_options idOf displayed attrs fo = fo := by
  induction attrs with
  | nil => intro fo; rfl
  | cons a rest ih =>
      intro fo
      have ha := h a (List.mem_cons_self a rest)
      have hrest := ih (fun attr h' => h attr (List.mem_cons_of_mem _ h'))
      cases hio : idOf a with
      | some id =>
          have hnd : ¬ id ∈ displayed := ha.2 id hio
          have e : add_highlight_to_formatted_options idOf displayed
              (a :: rest) fo
            = add_highlight_to_formatted_options idOf displayed rest fo := by
            simp [add_highlight_to_formatted_options, ha.1, hio, hnd]
          rw [e, hrest]
      | none =>
          have e : add_highlight_to_formatted_options idOf displayed
              (a :: rest) fo
            = add_highlight_to_formatted_options idOf displayed rest fo := by
            simp [add_highlight_to_formatted_options, ha.1, hio]
          rw [e, hrest]

/-- When every crop attribute is dead, the crop pass changes nothing. -/
theorem add_crop_all_dead (idOf : String → Option FieldId)
    (displayed : List FieldId) (cropLen : Nat) (attrs : List String)
    (h : ∀ attr ∈ attrs, deadAttr idOf displayed (splitCropAttr cropLen attr).1) :
    ∀ fo : FMap,
    add_crop_to_formatted_options idOf displayed cropLen attrs fo = fo := by
  induction attrs with
  | nil => intro fo; rfl
  | cons a rest ih =>
      intro fo
      show add_crop_to_formatted_options idOf displayed cropLen rest
          (cropStep idOf displayed cropLen a fo) = fo
      rw [cropStep_dead idOf displayed cropLen a (h a (List.mem_cons_self a rest))]
      exact ih (fun attr h' => h attr (List.mem_cons_of_mem _ h')) fo

/-- Formalization of C7 (amended).  An empty plan formats nothing; the
formatted document holds exactly the document fields selected by the plan's
field names (so a non-empty plan yields a non-empty formatted document only
when some plan field occurs in the retrieved projection); and when no
highlight or crop attribute resolves to a displayed field the plan stays
empty — the retrieve fill is skipped — even with retrieve ids present. -/
def FormattedEmptinessSpec (A : ByteStr → List Tok)
    (preTag postTag cropMarker : ByteStr) (fieldName : FieldId → String)
    (m : Tok → Option Nat) (idOf : String → Option FieldId)
    (displayed : List FieldId) (attrsH attrsC : List String) (cropLen : Nat)
    (toRetrieve : List FieldId) (fo : FMap) (doc : List (String × Json)) :
    Prop :=
  (fo = [] → format_fields A preTag postTag cropMarker fieldName m fo doc = [])
  ∧ ((format_fields A preTag postTag cropMarker fieldName m fo doc).map
        Prod.fst
      = (selectValues doc (fo.map (fun p => fieldName p.1))).map Prod.fst)
  ∧ ((∀ attr ∈ attrsH, deadAttr idOf displayed attr)
    → (∀ attr ∈ attrsC, deadAttr idOf displayed (splitCropAttr cropLen attr).1)
    → compute_formatted_options idOf displayed attrsH attrsC cropLen
        toRetrieve = [])

/-- C7 (amended): formatted emptiness.  The forward direction of the claim
holds (empty plan, empty `formatted`; nothing-resolves, empty plan); the
converse fails — a non-empty plan yields an empty `formatted` when no plan
field occurs in the document (see the counterexample). -/
theorem formatted_emptiness (A : ByteStr → List Tok)
    (preTag postTag cropMarker : ByteStr) (fieldName : FieldId → String)
    (m : Tok → Option Nat) (idOf : String → Option FieldId)
    (displayed : List FieldId) (attrsH attrsC : List String) (cropLen : Nat)
    (toRetrieve : List FieldId) (fo : FMap) (doc : List (String × Json)) :
    FormattedEmptinessSpec A preTag postTag cropMarker fieldName m idOf
      displayed attrsH attrsC cropLen toRetrieve fo doc := by
  refine ⟨?_, ?_, ?_⟩
  · rintro rfl
    simp [format_fields, selectValues]
  · rw [format_fields, List.map_map]
    rfl
  · intro hH hC
    have e1 := add_highlight_all_dead idOf displayed attrsH hH []
    have e2 := add_crop_all_dead idOf displayed cropLen attrsC hC []
    simp only [compute_formatted_options, e1, e2]
    simp

/-- Witness for C7: with only dead highlight/crop attributes the plan is
empty, and an empty plan formats the document to nothing. -/
theorem formatted_emptiness_witness :
    ([] : FMap) = []
    ∧ (∀ attr ∈ (["bogus"] : List String), deadAttr idOfC10 [0] attr)
    ∧ (∀ attr ∈ (["ghost:7"] : List String),
        deadAttr idOfC10 [0] (splitCropAttr 10 attr).1)
    ∧ FormattedEmptinessSpec analyzerC4 [] [] [] (fun _ => "title") mNone idOfC10
        [0] ["bogus"] ["ghost:7"] 10 [0] [] [("title", Json.null)] := by
  refine ⟨rfl, ?_, ?_, ?_⟩
  · intro attr h
    rw [List.mem_singleton] at h
    subst h
    exact ⟨by decide, fun i hi => by simp [idOfC10] at hi⟩
  · intro attr h
    rw [List.mem_singleton] at h
    subst h
    refine ⟨by decide, fun i hi => ?_⟩
    have hname : (splitCropAttr 10 "ghost:7").1 = "ghost" := by decide
    rw [hname] at hi
    simp [idOfC10] at hi
    subst hi
    decide
  · exact formatted_emptiness analyzerC4 [] [] [] (fun _ => "title") mNone idOfC10
      [0] ["bogus"] ["ghost:7"] 10 [0] [] [("title", Json.null)]

/-- Fields-id map for the C7 counterexample. -/
def idOfC7 : String → Option FieldId :=
  fun s => if s = "title" then some 0 else none

/-- Counterexample to C7 as frozen: highlighting the displayed field `title`
yields the non-empty plan `[(0, {highlight: true, crop: None})]`, yet a
document whose retrieved projection holds only `author` formats to the empty
document — `formatted` is empty while the plan is not, refuting `formatted is
empty exactly when the plan is empty`. -/
theorem formatted_emptiness_cex :
    compute_formatted_options idOfC7 [0] ["title"] [] 10 []
      = [(0, ⟨true, none⟩)]
    ∧ format_fields analyzerC4 [] [] [] (fun _ => "title") mNone
        [(0, ⟨true, none⟩)] [("author", Json.null)] = []
    ∧ ([(0, (⟨true, none⟩ : FormatOptions))] : FMap) ≠ [] := by
  refine ⟨by decide, ?_, by decide⟩
  rfl

/-! ### C8: geo-distance insertion -/

/-- The character class `[[:digit:].\-]` of the geo-point regex. -/
def geoClassChar (c : Char) : Bool := c.isDigit || c = '.' || c = '-'

/-- Modelled from the spec: the `\s` class of the host regex engine
(Unicode whitespace). -/
def wsChar (c : Char) : Bool :=
  c = ' ' || c = '\t' || c = '\n' || c = '\r' || c = '\x0B' || c = '\x0C'
    || c.toNat = 133 || c.toNat = 160 || c.toNat = 5760
    || (8192 ≤ c.toNat && c.toNat ≤ 8202) || c.toNat = 8232
    || c.toNat = 8233 || c.toNat = 8239 || c.toNat = 8287
    || c.toNat = 12288

/-- The literal head of the geo-point regex. -/
def geoLit : List Char := "_geoPoint(".data

/-- Match of the geo-point regex anchored at the start of `cs`, returning the
two captured coordinate fragments.  Maximal munch is exact here: the
coordinate class is disjoint from whitespace, `,` and `)`, so the greedy
`+` repetitions of the regex never backtrack successfully. -/
def geoMatchAt (cs : List Char) : Option (List Char × List Char) :=
  if geoLit.isPrefixOf cs then
    let r0 := (cs.drop geoLit.length).dropWhile wsChar
    let g1 := r0.takeWhile geoClassChar
    let r1 := (r0.dropWhile geoClassChar).dropWhile wsChar
    if g1 = [] then none else
    match r1 with
    | ',' :: r2 =>
        let r2' := r2.dropWhile wsChar
        let g2 := r2'.takeWhile geoClassChar
        let r3 := (r2'.dropWhile geoClassChar).dropWhile wsChar
        if g2 = [] then none else
        match r3 with
        | ')' :: _ => some (g1, g2)
        | _ => none
    | _ => none
  else none

/-- Unanchored leftmost search of the geo-point regex
(`GEO_REGEX.captures`, source lines 296-299). -/
def geoCaptures : List Char → Option (List Char × List Char)
  | [] => none
  | c :: cs =>
      match geoMatchAt (c :: cs) with
      | some r => some r
      | none => geoCaptures cs

/-- Modelled from the spec: successful float parsing of a regex capture by
the host standard library (external to src/), restricted to the capture's
character class (digits, dots, minus): an optional leading sign followed by
digits with an optional fractional part, or a fractional part alone. -/
def rustFloatOk (cs : List Char) : Bool :=
  let body := match cs with
    | '-' :: rest => rest
    | '+' :: rest => rest
    | _ => cs
  let intPart := body.takeWhile Char.isDigit
  let rest := body.dropWhile Char.isDigit
  match rest with
  | [] => intPart ≠ []
  | '.' :: frac => (intPart ≠ [] || frac ≠ []) && frac.all Char.isDigit
  | _ => false

/-- Indexing a JSON value with a string key (`value["lat"]` in the source):
the field's value in an object, `Null` otherwise. -/
def jsonGet (j : Json) (key : String) : Json :=
  match j with
  | .obj fields => ((fields.find? (fun kv => kv.1 = key)).map Prod.snd).getD .null
  | _ => .null

/-- The decimal representation a JSON number yields under `as_f64`;
`none` for every non-number. -/
def asF64 : Json → Option ByteStr
  | .num ds => some ds
  | _ => none

/-- Document field lookup (`document.get`), defaulting to `Null` as in
source line 305. -/
def docGet (doc : List (String × Json)) (key : String) : Json :=
  ((doc.find? (fun kv => kv.1 = key)).map Prod.snd).getD .null

/-- `IndexMap::insert`: replace in place when the key exists, else append. -/
def insertField (doc : List (String × Json)) (key : String) (v : Json) :
    List (String × Json) :=
  if doc.any (fun kv => kv.1 = key) then
    doc.map (fun kv => if kv.1 = key then (kv.1, v) else kv)
  else doc ++ [(key, v)]

/-- Decimal digits of a natural number, as bytes. -/
def natDigits (n : Nat) : ByteStr := (Nat.toDigits 10 n).map Char.toNat

/-- Outcome of `insert_geo_distance`: the Rust function returns `()` and can
only mutate the document or panic — it has no error channel at all. -/
inductive GeoOutcome where
  | panicked
  | ok (doc : List (String × Json))

/-- Embedding of `insert_geo_distance` (source lines 294-311).  The external
float operations are parameters: `parseFloatOk` says whether a captured
fragment parses as a float, and `dist` is the rounded great-circle distance
from the two captures and the document's lat/lng decimal forms.  The source
calls `.parse().unwrap()` on both captures, so a parse failure panics before
the document is even consulted. -/
def insert_geo_distance (parseFloatOk : List Char → Bool)
    (dist : List Char → List Char → ByteStr → ByteStr → Nat)
    (sorts : List String) (doc : List (String × Json)) : GeoOutcome :=
  match sorts.findSome? (fun sort => geoCaptures sort.data) with
  | none => .ok doc
  | some (c1, c2) =>
      if parseFloatOk c1 && parseFloatOk c2 then
        let geoPoint := docGet doc "_geo"
        match asF64 (jsonGet geoPoint "lat"), asF64 (jsonGet geoPoint "lng") with
        | some lat, some lng =>
            .ok (insertField doc "_geoDistance"
              (.num (natDigits (dist c1 c2 lat lng))))
        | _, _ => .ok doc
      else .panicked

/-- C8: at the sort entry `_geoPoint(1.2.3,4):asc` the geo regex matches with
captures `1.2.3` and `4`, the first capture fails to parse as a float, and
`insert_geo_distance` panics (the `unwrap` of source lines 302-303) instead
of surfacing a typed Internal error — the function's return type has no error
channel at all. -/
theorem geo_parse_failure_panics :
    geoCaptures ("_geoPoint(1.2.3,4):asc".data)
      = some ("1.2.3".data, "4".data)
    ∧ rustFloatOk ("1.2.3".data) = false
    ∧ rustFloatOk ("4".data) = true
    ∧ insert_geo_distance rustFloatOk (fun _ _ _ _ => 0)
        ["_geoPoint(1.2.3,4):asc"]
        [("city", Json.str [76, 105, 108, 108, 101])] = .panicked :=
  ⟨by decide, by decide, by decide, rfl⟩

/-! ### C9: filter parsing -/

/-- The delegated calls `parse_filter` makes to the index's filter grammar
(an external collaborator): `Filter::from_str` on a whole string expression,
or `Filter::from_array` on a conjunction whose elements are either atomic
clauses (`inr`) or disjunctions of clauses (`inl`). -/
inductive FilterCall where
  | fromStr (s : ByteStr)
  | fromArray (ands : List (Sum (List ByteStr) ByteStr))

/-- The typed error of the facet module raised by `parse_filter`:
`InvalidExpression(expected_shapes, found_value)`. -/
inductive FacetErr where
  | invalidExpression (expected : List String) (found : Json)

/-- The inner loop of `parse_filter_array` over a nested array (source lines
795-803): every element must be a string. -/
def parseStrings : List Json → Except FacetErr (List ByteStr)
  | [] => .ok []
  | .str s :: rest => (parseStrings rest).map (fun l => s :: l)
  | v :: _ => .error (.invalidExpression ["String"] v)

/-- The outer loop of `parse_filter_array` (source lines 790-812): a string
element is an atomic clause, a nested array is a disjunction of strings,
anything else raises `InvalidExpression(["String", "[String]"], v)`. -/
def parseFilterElems :
    List Json → Except FacetErr (List (Sum (List ByteStr) ByteStr))
  | [] => .ok []
  | .str s :: rest => (parseFilterElems rest).map (fun ands => .inr s :: ands)
  | .arr inner :: rest =>
      match parseStrings inner with
      | .ok ors => (parseFilterElems rest).map (fun ands => .inl ors :: ands)
      | .error e => .error e
  | v :: _ => .error (.invalidExpression ["String", "[String]"] v)

/-- Embedding of `parse_filter_array` (source lines 789-815): collect the
conjunction and delegate to `Filter::from_array`. -/
def parse_filter_array (arr : List Json) : Except FacetErr FilterCall :=
  (parseFilterElems arr).map .fromArray

/-- Embedding of `parse_filter` (source lines 778-787): a string delegates to
`Filter::from_str`, an array to `parse_filter_array`, anything else raises
`InvalidExpression(["Array"], v)`.  An error propagates through the `?` in
`perform_search` before any filter is applied. -/
def parse_filter : Json → Except FacetErr FilterCall
  | .str s => .ok (.fromStr s)
  | .arr arr => parse_filter_array arr
  | v => .error (.invalidExpression ["Array"] v)

/-- An array element of the accepted shape: a string, or an array of
strings. -/
def goodElem : Json → Prop := fun v =>
  (∃ s, v = .str s) ∨ (∃ l, v = .arr l ∧ ∀ x ∈ l, ∃ s, x = .str s)

/-- The string carried by a string value. -/
def strOf : Json → ByteStr := fun v =>
  match v with
  | .str s => s
  | _ => []

/-- The conjunction element a good array element denotes. -/
def elemVal : Json → Sum (List ByteStr) ByteStr := fun v =>
  match v with
  | .str s => .inr s
  | .arr l => .inl (l.map strOf)
  | _ => .inr []

/-- On a list of strings the inner loop succeeds with those strings. -/
theorem parseStrings_good (l : List Json) (h : ∀ x ∈ l, ∃ s, x = .str s) :
    parseStrings l = .ok (l.map strOf) := by
  induction l with
  | nil => rfl
  | cons v rest ih =>
      obtain ⟨s, rfl⟩ := h v (List.mem_cons_self v rest)
      have := ih (fun x hx => h x (List.mem_cons_of_mem _ hx))
      simp only [parseStrings, this]
      rfl

/-- The first non-string inside a nested array raises
`InvalidExpression(["String"], v)`. -/
theorem parseStrings_bad (s1 : List Json) (v : Json) (s2 : List Json)
    (hs1 : ∀ x ∈ s1, ∃ t, x = .str t) (hv : ∀ t, v ≠ .str t) :
    parseStrings (s1 ++ v :: s2) = .error (.invalidExpression ["String"] v) := by
  induction s1 with
  | nil =>
      cases v with
      | str t => exact absurd rfl (hv t)
      | null => rfl
      | bool b => rfl
      | num ds => rfl
      | arr l => rfl
      | obj fs => rfl
  | cons x rest ih =>
      obtain ⟨t, rfl⟩ := hs1 x (List.mem_cons_self x rest)
      have hrest := ih (fun y hy => hs1 y (List.mem_cons_of_mem _ hy))
      have e : parseStrings ((Json.str t :: rest) ++ v :: s2)
          = (parseStrings (rest ++ v :: s2)).map (fun l => t :: l) := rfl
      rw [e, hrest]
      rfl

/-- On good elements the outer loop succeeds with the denoted conjunction. -/
theorem parseFilterElems_good (l : List Json) (h : ∀ v ∈ l, goodElem v) :
    parseFilterElems l = .ok (l.map elemVal) := by
  induction l with
  | nil => rfl
  | cons v rest ih =>
      have hrest := ih (fun x hx => h x (List.mem_cons_of_mem _ hx))
      rcases h v (List.mem_cons_self v rest) with ⟨s, rfl⟩ | ⟨inner, rfl, hinner⟩
      · simp only [parseFilterElems, hrest]
        rfl
      · simp only [parseFilterElems, parseStrings_good inner hinner, hrest]
        rfl

/-- The first element that is neither a string nor an array raises
`InvalidExpression(["String", "[String]"], v)`, independently of what
follows. -/
theorem parseFilterElems_bad (l1 : List Json) (v : Json) (l2 : List Json)
    (h1 : ∀ x ∈ l1, goodElem x) (hvs : ∀ s, v ≠ .str s)
    (hva : ∀ l, v ≠ .arr l) :
    parseFilterElems (l1 ++ v :: l2)
      = .error (.invalidExpression ["String", "[String]"] v) := by
  induction l1 with
  | nil =>
      cases v with
      | str s => exact absurd rfl (hvs s)
      | arr l => exact absurd rfl (hva l)
      | null => rfl
      | bool b => rfl
      | num ds => rfl
      | obj fs => rfl
  | cons x rest ih =>
      have hrest := ih (fun y hy => h1 y (List.mem_cons_of_mem _ hy))
      rcases h1 x (List.mem_cons_self x rest) with ⟨s, rfl⟩ | ⟨inner, rfl, hinner⟩
      · have e : parseFilterElems ((Json.str s :: rest) ++ v :: l2)
            = (parseFilterElems (rest ++ v :: l2)).map
                (fun ands => .inr s :: ands) := rfl
        rw [e, hrest]
        rfl
      · have e : parseFilterElems ((Json.arr inner :: rest) ++ v :: l2)
            = match parseStrings inner with
              | .ok ors => (parseFilterElems (rest ++ v :: l2)).map
                  (fun ands => .inl ors :: ands)
              | .error err => .error err := rfl
        rw [e, parseStrings_good inner hinner, hrest]
        rfl

/-- A non-string inside a nested array raises
`InvalidExpression(["String"], v)`, independently of what follows. -/
theorem parseFilterElems_bad_nested (l1 : List Json) (s1 : List Json)
    (v : Json) (s2 : List Json) (l2 : List Json)
    (h1 : ∀ x ∈ l1, goodElem x) (hs1 : ∀ x ∈ s1, ∃ t, x = .str t)
    (hv : ∀ t, v ≠ .str t) :
    parseFilterElems (l1 ++ (.arr (s1 ++ v :: s2)) :: l2)
      = .error (.invalidExpression ["String"] v) := by
  induction l1 with
  | nil =>
      simp only [List.nil_append, parseFilterElems,
        parseStrings_bad s1 v s2 hs1 hv]
  | cons x rest ih =>
      have hrest := ih (fun y hy => h1 y (List.mem_cons_of_mem _ hy))
      rcases h1 x (List.mem_cons_self x rest) with ⟨s, rfl⟩ | ⟨inner, rfl, hinner⟩
      · have e : parseFilterElems
              ((Json.str s :: rest) ++ (Json.arr (s1 ++ v :: s2)) :: l2)
            = (parseFilterElems
                (rest ++ (Json.arr (s1 ++ v :: s2)) :: l2)).map
                (fun ands => .inr s :: ands) := rfl
        rw [e, hrest]
        rfl
      · have e : parseFilterElems
              ((Json.arr inner :: rest) ++ (Json.arr (s1 ++ v :: s2)) :: l2)
            = match parseStrings inner with
              | .ok ors => (parseFilterElems
                  (rest ++ (Json.arr (s1 ++ v :: s2)) :: l2)).map
                  (fun ands => .inl ors :: ands)
              | .error err => .error err := rfl
        rw [e, parseStrings_good inner hinner, hrest]
        rfl

/-- C9: filter parsing.  A JSON string delegates as a single expression; an
array of good elements delegates as the corresponding conjunction; any other
top-level value raises `InvalidExpression(["Array"], v)`; a bad array element
raises `InvalidExpression(["String", "[String]"], v)`; a non-string inside a
nested array raises `InvalidExpression(["String"], v)`.  Every error aborts
`parse_filter`, so no filter is applied. -/
theorem filter_parsing :
    (∀ s, parse_filter (.str s) = .ok (.fromStr s))
    ∧ (∀ l, (∀ v ∈ l, goodElem v)
        → parse_filter (.arr l) = .ok (.fromArray (l.map elemVal)))
    ∧ (∀ v, (∀ s, v ≠ .str s) → (∀ l, v ≠ .arr l)
        → parse_filter v = .error (.invalidExpression ["Array"] v))
    ∧ (∀ l1 v l2, (∀ x ∈ l1, goodElem x) → (∀ s, v ≠ .str s)
        → (∀ l, v ≠ .arr l)
        → parse_filter (.arr (l1 ++ v :: l2))
          = .error (.invalidExpression ["String", "[String]"] v))
    ∧ (∀ l1 s1 v s2 l2, (∀ x ∈ l1, goodElem x) → (∀ x ∈ s1, ∃ t, x = .str t)
        → (∀ t, v ≠ .str t)
        → parse_filter (.arr (l1 ++ (.arr (s1 ++ v :: s2)) :: l2))
          = .error (.invalidExpression ["String"] v)) := by
  refine ⟨fun s => rfl, ?_, ?_, ?_, ?_⟩
  · intro l h
    show (parseFilterElems l).map FilterCall.fromArray = _
    rw [parseFilterElems_good l h]
    rfl
  · intro v hvs hva
    cases v with
    | str s => exact absurd rfl (hvs s)
    | arr l => exact absurd rfl (hva l)
    | null => rfl
    | bool b => rfl
    | num ds => rfl
    | obj fs => rfl
  · intro l1 v l2 h1 hvs hva
    show (parseFilterElems (l1 ++ v :: l2)).map FilterCall.fromArray = _
    rw [parseFilterElems_bad l1 v l2 h1 hvs hva]
    rfl
  · intro l1 s1 v s2 l2 h1 hs1 hv
    show (parseFilterElems
        (l1 ++ (.arr (s1 ++ v :: s2)) :: l2)).map FilterCall.fromArray = _
    rw [parseFilterElems_bad_nested l1 s1 v s2 l2 h1 hs1 hv]
    rfl

/-- Witness for C9: a good two-element conjunction parses to the delegated
call; a top-level boolean and a boolean nested in an array raise the two
typed errors. -/
theorem filter_parsing_witness :
    (∀ v ∈ ([Json.str [97], Json.arr [Json.str [98]]] : List Json), goodElem v)
    ∧ parse_filter (.arr [Json.str [97], Json.arr [Json.str [98]]])
        = .ok (.fromArray [.inr [97], .inl [[98]]])
    ∧ parse_filter (.bool true)
        = .error (.invalidExpression ["Array"] (.bool true))
    ∧ parse_filter (.arr [Json.str [97], Json.bool true])
        = .error (.invalidExpression ["String", "[String]"] (.bool true)) := by
  have hg : ∀ v ∈ ([Json.str [97], Json.arr [Json.str [98]]] : List Json),
      goodElem v := by
    intro v hv
    simp only [List.mem_cons, List.not_mem_nil, or_false] at hv
    rcases hv with rfl | rfl
    · exact Or.inl ⟨[97], rfl⟩
    · refine Or.inr ⟨[Json.str [98]], rfl, ?_⟩
      intro x hx
      simp only [List.mem_singleton] at hx
      exact ⟨[98], hx⟩
  refine ⟨hg, ?_, ?_, ?_⟩
  · exact filter_parsing.2.1 [Json.str [97], Json.arr [Json.str [98]]] hg
  · exact filter_parsing.2.2.1 (.bool true)
      (fun s h => Json.noConfusion h) (fun l h => Json.noConfusion h)
  · exact filter_parsing.2.2.2.1 [Json.str [97]] (.bool true) []
      (by
        intro x hx
        simp only [List.mem_singleton] at hx
        subst hx
        exact Or.inl ⟨[97], rfl⟩)
      (fun s h => Json.noConfusion h) (fun l h => Json.noConfusion h)

end MeiliSearch
